import Mathlib

/-!
Verification of the nix-inspect browsing model (src/model.rs) against its
natural-language specification.  Rust strings are embedded as their
character sequences; where the code indexes a String by bytes, byte
positions are computed from the characters via Char.utf8Size.  Vec is
embedded as List, HashMap as a function to Option, usize as Nat with
release-profile wraparound made explicit where subtraction can underflow.
-/

namespace NixInspect

/-- A segment of a browser path: one Rust String, seen as its character
sequence. -/
abbrev Seg := List Char

/-- BrowserPath (model.rs 177): ordered sequence of segment strings,
a tuple struct over Vec of String. -/
abbrev BrowserPath := List Seg

/-- BrowserPath::parent (model.rs 199-205): the path without its final
segment, or none when the path has one or zero segments. -/
def parent (p : BrowserPath) : Option BrowserPath :=
  if p.length > 1 then some p.dropLast else none

/-- BrowserPath::child (model.rs 206-210): append one segment. -/
def child (p : BrowserPath) (name : Seg) : BrowserPath :=
  p ++ [name]

/-- BrowserPath::extend (model.rs 211-214): concatenation. -/
def extendPath (p other : BrowserPath) : BrowserPath :=
  p ++ other

/-- One segment as rendered by to_expr (model.rs 229-235): wrapped in double
quotes when it contains a dot, verbatim otherwise. -/
def quoteSeg (s : Seg) : Seg :=
  if '.' ∈ s then '"' :: s ++ ['"'] else s

/-- The enumerate loop of to_expr (model.rs 224-236): segments joined by
dots, each rendered by quoteSeg. -/
def joinDot : List Seg → Seg
  | [] => []
  | [s] => quoteSeg s
  | s :: rest => quoteSeg s ++ '.' :: joinDot rest

/-- BrowserPath::to_expr (model.rs 215-239): canonical text form; a leading
empty segment is suppressed (the peek test on the first item's length). -/
def to_expr (p : BrowserPath) : Seg :=
  joinDot (match p with
    | [] :: rest => rest
    | q => q)

/-- The character loop of From String for BrowserPath (model.rs 248-264).
The boolean is the mode: true while inside the inner quote-consuming loop,
false in the outer loop; cur is the segment accumulated so far. -/
def fromAux : List Char → Bool → Seg → BrowserPath
  | [], _, cur => [cur]
  | c :: rest, true, cur =>
    if c = '"' then fromAux rest false cur
    else fromAux rest true (cur ++ [c])
  | c :: rest, false, cur =>
    if c = '.' then cur :: fromAux rest false []
    else if c = '"' then fromAux rest true cur
    else fromAux rest false (cur ++ [c])

/-- From String for BrowserPath (model.rs 242-270): split on unquoted dots,
quoted runs are folded into the current segment. -/
def fromString (s : List Char) : BrowserPath :=
  fromAux s false []

/-- next (model.rs 472-478): wraparound cursor step downward. -/
def next (i len : Nat) : Nat :=
  if i ≥ len - 1 then 0 else i + 1

/-- prev (model.rs 484-490): wraparound cursor step upward. -/
def prev (i len : Nat) : Nat :=
  if i = 0 then len - 1 else i - 1

/-- C5: for every list length N at least 1 and every index i below N, the
wraparound cursor-stepping functions satisfy prev (next i N) N = i. -/
theorem prev_next_roundtrip (i N : Nat) (h1 : 1 ≤ N) (h2 : i < N) :
    prev (next i N) N = i := by
  unfold next prev
  split <;> split <;> omega

/-- Witness for C5 at N = 3, i = 2. -/
theorem prev_next_roundtrip_witness :
    1 ≤ 3 ∧ 2 < 3 ∧ prev (next 2 3) 3 = 2 :=
  ⟨by decide, by decide, prev_next_roundtrip 2 3 (by decide) (by decide)⟩

/-- Inside a quoted run, every character up to the closing quote is folded
into the current segment, after which parsing resumes in outer mode. -/
theorem fromAux_quoted (s : Seg) (hq : '"' ∉ s) (u : List Char) (cur : Seg) :
    fromAux (s ++ '"' :: u) true cur = fromAux u false (cur ++ s) := by
  induction s generalizing cur with
  | nil => simp [fromAux]
  | cons c s ih =>
    have hc : c ≠ '"' := fun h => hq (h ▸ List.mem_cons_self c s)
    have hs : '"' ∉ s := fun h => hq (List.mem_cons_of_mem c h)
    simp only [List.cons_append, fromAux, if_neg hc, List.append_eq]
    rw [ih hs]
    simp

/-- A dot-free, quote-free segment is consumed verbatim in outer mode. -/
theorem fromAux_plain (s : Seg) (hd : '.' ∉ s) (hq : '"' ∉ s)
    (t : List Char) (cur : Seg) :
    fromAux (s ++ t) false cur = fromAux t false (cur ++ s) := by
  induction s generalizing cur with
  | nil => simp
  | cons c s ih =>
    have hc : c ≠ '.' := fun h => hd (h ▸ List.mem_cons_self c s)
    have hc' : c ≠ '"' := fun h => hq (h ▸ List.mem_cons_self c s)
    have hs : '.' ∉ s := fun h => hd (List.mem_cons_of_mem c h)
    have hs' : '"' ∉ s := fun h => hq (List.mem_cons_of_mem c h)
    simp only [List.cons_append, fromAux, if_neg hc, if_neg hc', List.append_eq]
    rw [ih hs hs']
    simp

/-- A quote-free segment rendered by quoteSeg is consumed whole in outer
mode, whether or not it got wrapped in quotes. -/
theorem fromAux_quoteSeg (s : Seg) (hq : '"' ∉ s) (t : List Char) (cur : Seg) :
    fromAux (quoteSeg s ++ t) false cur = fromAux t false (cur ++ s) := by
  unfold quoteSeg
  split
  · have : ('"' :: s ++ ['"']) ++ t = '"' :: (s ++ '"' :: t) := by simp
    rw [this]
    show fromAux ('"' :: (s ++ '"' :: t)) false cur = _
    rw [show fromAux ('"' :: (s ++ '"' :: t)) false cur
          = fromAux (s ++ '"' :: t) true cur from by simp [fromAux]]
    exact fromAux_quoted s hq t cur
  · exact fromAux_plain s (by assumption) hq t cur

/-- Parsing the dot-joined rendering of a nonempty, quote-free segment list
recovers exactly those segments (prefixed into the accumulator). -/
theorem fromAux_joinDot (s : Seg) (rest : List Seg)
    (hq : ∀ x ∈ s :: rest, '"' ∉ x) (cur : Seg) :
    fromAux (joinDot (s :: rest)) false cur = (cur ++ s) :: rest := by
  induction rest generalizing s cur with
  | nil =>
    have : joinDot [s] = quoteSeg s ++ [] := by simp [joinDot]
    rw [this, fromAux_quoteSeg s (hq s (List.mem_cons_self s [])) [] cur]
    simp [fromAux]
  | cons s' rest ih =>
    have hs : '"' ∉ s := hq s (List.mem_cons_self s _)
    have hrest : ∀ x ∈ s' :: rest, '"' ∉ x := fun x hx =>
      hq x (List.mem_cons_of_mem s hx)
    show fromAux (quoteSeg s ++ '.' :: joinDot (s' :: rest)) false cur = _
    rw [fromAux_quoteSeg s hs _ cur]
    show (cur ++ s) :: fromAux (joinDot (s' :: rest)) false [] = _
    rw [ih s' hrest []]
    simp

/-- C2 (amended): for every nonempty BrowserPath whose first segment is
nonempty and none of whose segments contains a double quote, parsing the
canonical text form back yields exactly the original segment sequence. -/
theorem from_to_expr_roundtrip (s : Seg) (rest : List Seg) (hs : s ≠ [])
    (hq : ∀ x ∈ s :: rest, '"' ∉ x) :
    fromString (to_expr (s :: rest)) = s :: rest := by
  have hto : to_expr (s :: rest) = joinDot (s :: rest) := by
    cases s with
    | nil => exact absurd rfl hs
    | cons c cs => rfl
  rw [hto]
  show fromAux (joinDot (s :: rest)) false [] = s :: rest
  rw [fromAux_joinDot s rest hq []]
  simp

/-- Witness for C2, amended form, on the path darwinConfigurations."a.b". -/
theorem from_to_expr_roundtrip_witness :
    ("darwinConfigurations".toList ≠ ([] : Seg)) ∧
    (∀ x ∈ ["darwinConfigurations".toList, "a.b".toList], '"' ∉ x) ∧
    fromString (to_expr ["darwinConfigurations".toList, "a.b".toList]) =
      ["darwinConfigurations".toList, "a.b".toList] :=
  ⟨by decide, by decide,
    from_to_expr_roundtrip "darwinConfigurations".toList ["a.b".toList]
      (by decide) (by decide)⟩

/-- C2 counterexample: the path with segments ["", "a"] contains no quote
character, yet its canonical text form parses back to the single segment
["a"]: the suppressed leading empty segment is not recovered. -/
theorem from_to_expr_not_involutive :
    (∀ x ∈ ([[], ['a']] : BrowserPath), '"' ∉ x) ∧
    fromString (to_expr [[], ['a']]) = [['a']] ∧
    fromString (to_expr [[], ['a']]) ≠ [[], ['a']] := by
  refine ⟨by decide, by decide, by decide⟩

/-- C6: the three concrete round trips of the expression conversion test
(model.rs 272-280): parsing then printing the dot form, the plain attribute
form and the quoted-dot form reproduces the expected text. -/
theorem expr_conversion_concrete :
    to_expr (fromString ".".toList) = "".toList ∧
    to_expr (fromString ".darwinConfigurations".toList) =
      "darwinConfigurations".toList ∧
    to_expr (fromString ".darwinConfigurations.\"example.com\"".toList) =
      "darwinConfigurations.\"example.com\"".toList := by
  decide

/-- BrowserStackItem (model.rs 168-174). -/
inductive BrowserStackItem
  | Root
  | Bookmarks
  | Recents
  | BrowserPath (p : List Seg)
deriving DecidableEq

/-- BrowserStack (model.rs 101-102): a Vec of stack items, last item on
top. -/
abbrev BrowserStack := List BrowserStackItem

/-- BrowserStack::push_path (model.rs 118-120). -/
def push_path (s : BrowserStack) (p : BrowserPath) : BrowserStack :=
  s ++ [BrowserStackItem.BrowserPath p]

/-- BrowserStack::prev_item (model.rs 121-123): the second-to-last entry. -/
def prev_item (s : BrowserStack) : Option BrowserStackItem :=
  (if 2 ≤ s.length then some (s.length - 2) else none).bind fun i => s[i]?

/-- BrowserStack::current (model.rs 124-129): the top entry when it is a
concrete path. -/
def current (s : BrowserStack) : Option BrowserPath :=
  match s.getLast? with
  | some (BrowserStackItem.BrowserPath p) => some p
  | _ => none

/-- BrowserStack::current_force (model.rs 130-135): the top entry when it
is a concrete path; none models the panic branch. -/
def current_force (s : BrowserStack) : Option BrowserPath :=
  match s.getLast? with
  | some (BrowserStackItem.BrowserPath p) => some p
  | _ => none

/-- C8: current returns some p exactly when the top stack entry is the
concrete path p (so it is none on an empty stack or a marker top), and
current_force hits its panic branch exactly when the top entry is not a
concrete path. -/
theorem current_and_current_force_top (s : BrowserStack) :
    (∀ p, current s = some p ↔ s.getLast? = some (BrowserStackItem.BrowserPath p)) ∧
    (current_force s = none ↔ ∀ p, s.getLast? ≠ some (BrowserStackItem.BrowserPath p)) := by
  constructor
  · intro p
    unfold current
    cases h : s.getLast? with
    | none => simp
    | some item => cases item <;> simp
  · unfold current_force
    cases h : s.getLast? with
    | none => simp
    | some item => cases item <;> simp

/-- The release-profile modulus of usize arithmetic. -/
def USIZE : Nat := 2 ^ 64

/-- InputModel (model.rs 415-420). -/
structure InputModel where
  typing : Bool
  input : List Char
  cursor_position : Nat
deriving DecidableEq

/-- The UTF-8 byte length of a string given as its character sequence:
Rust's String::len. -/
def byteSize : List Char → Nat
  | [] => 0
  | c :: s => c.utf8Size + byteSize s

/-- The character index corresponding to a byte index of a UTF-8 string,
when that byte index is a character boundary (0, the total length, or the
first byte of a character); none when it is out of range or falls inside
a character's encoding.  This is the domain on which String::insert does
not panic. -/
def charIdxAt : List Char → Nat → Option Nat
  | _, 0 => some 0
  | [], _ + 1 => none
  | c :: s, i + 1 =>
    if i + 1 < c.utf8Size then none
    else (charIdxAt s (i + 1 - c.utf8Size)).map (· + 1)

/-- InputModel::clamp_cursor (model.rs 467-469): clamp a new position into
0..=input.len(), where len() is the byte length. -/
def InputModel.clamp_cursor (m : InputModel) (pos : Nat) : Nat :=
  min pos (byteSize m.input)

/-- InputModel::move_cursor_left (model.rs 459-461).  The source computes
cursor_position - 1 in usize; with release-profile wraparound this is
addition of USIZE - 1 modulo USIZE, then clamped. -/
def InputModel.move_cursor_left (m : InputModel) : InputModel :=
  { m with cursor_position := m.clamp_cursor ((m.cursor_position + (USIZE - 1)) % USIZE) }

/-- InputModel::move_cursor_right (model.rs 463-465). -/
def InputModel.move_cursor_right (m : InputModel) : InputModel :=
  { m with cursor_position := m.clamp_cursor ((m.cursor_position + 1) % USIZE) }

/-- InputModel::insert (model.rs 441-444).  cursor_position is a byte
index; String::insert panics unless it is a character boundary within the
string, and none models that panic.  On success the character is placed at
the corresponding character position and the cursor advances by one byte
(the source adds 1 regardless of the character's encoded size). -/
def InputModel.insert (m : InputModel) (c : Char) : Option InputModel :=
  match charIdxAt m.input m.cursor_position with
  | some k =>
    some { m with input := m.input.insertIdx k c,
                  cursor_position := (m.cursor_position + 1) % USIZE }
  | none => none

/-- InputModel::backspace (model.rs 446-457): no-op at position 0;
otherwise the source feeds the byte-valued cursor_position into
chars().take and chars().skip, which count characters, and that mixing is
kept as is. -/
def InputModel.backspace (m : InputModel) : InputModel :=
  if m.cursor_position = 0 then m
  else
    InputModel.move_cursor_left
      { m with input := m.input.take (m.cursor_position - 1)
                          ++ m.input.drop m.cursor_position }

/-- The key codes InputModel::handle_key_event distinguishes; Other stands
for every key code of the wildcard arm. -/
inductive KeyCode
  | Char (c : Char)
  | Backspace
  | Left
  | Right
  | Other
deriving DecidableEq

/-- InputModel::handle_key_event (model.rs 423-439); none propagates the
only reachable panic, the one of String::insert. -/
def InputModel.handle_key_event (m : InputModel) (k : KeyCode) : Option InputModel :=
  match k with
  | KeyCode.Char c => m.insert c
  | KeyCode.Backspace => some m.backspace
  | KeyCode.Left => some m.move_cursor_left
  | KeyCode.Right => some m.move_cursor_right
  | KeyCode.Other => some m

/-- A boundary byte index names a character position within the string
and is at most the byte length. -/
theorem charIdxAt_le (s : List Char) : ∀ (i k : Nat), charIdxAt s i = some k →
    k ≤ s.length ∧ i ≤ byteSize s := by
  induction s with
  | nil =>
    intro i k h
    cases i with
    | zero =>
      simp only [charIdxAt, Option.some.injEq] at h
      exact ⟨by omega, Nat.zero_le _⟩
    | succ i => simp [charIdxAt] at h
  | cons c s ih =>
    intro i k h
    cases i with
    | zero =>
      simp only [charIdxAt, Option.some.injEq] at h
      exact ⟨by omega, Nat.zero_le _⟩
    | succ i =>
      rw [charIdxAt] at h
      split at h
      · exact absurd h (by simp)
      · next hge =>
        cases hk : charIdxAt s (i + 1 - c.utf8Size) with
        | none =>
          rw [hk] at h
          simp at h
        | some k0 =>
          rw [hk] at h
          simp only [Option.map_some', Option.some.injEq] at h
          obtain ⟨h1, h2⟩ := ih (i + 1 - c.utf8Size) k0 hk
          have hsz : 0 < c.utf8Size := Char.utf8Size_pos c
          refine ⟨?_, ?_⟩
          · show k ≤ s.length + 1
            omega
          · show i + 1 ≤ c.utf8Size + byteSize s
            omega

/-- Inserting a character at a valid position grows the byte length by
exactly that character's encoded size. -/
theorem byteSize_insertIdx (c : Char) : ∀ (k : Nat) (s : List Char), k ≤ s.length →
    byteSize (s.insertIdx k c) = byteSize s + c.utf8Size := by
  intro k
  induction k with
  | zero =>
    intro s hk
    show byteSize (c :: s) = byteSize s + c.utf8Size
    show c.utf8Size + byteSize s = byteSize s + c.utf8Size
    omega
  | succ k ih =>
    intro s hk
    cases s with
    | nil => simp at hk
    | cons a s =>
      show byteSize (a :: s.insertIdx k c) = byteSize (a :: s) + c.utf8Size
      show a.utf8Size + byteSize (s.insertIdx k c) =
        a.utf8Size + byteSize s + c.utf8Size
      rw [ih s (by simpa using hk)]
      omega

/-- C9 counterexample: typing the two-byte character é into an empty box
leaves cursor_position = 1, a byte offset strictly inside é's encoding;
that state satisfies the claim's bound (1 is at most both the byte length
2 and the character count 1), yet handling the next character key panics
in String::insert, modelled as none. -/
theorem handle_key_event_panics_inside_char :
    InputModel.handle_key_event ⟨true, [], 0⟩ (KeyCode.Char 'é') =
      some ⟨true, ['é'], 1⟩ ∧
    1 ≤ byteSize ['é'] ∧ 1 ≤ (['é'] : List Char).length ∧
    InputModel.handle_key_event ⟨true, ['é'], 1⟩ (KeyCode.Char 'a') = none := by
  refine ⟨by decide, by decide, by decide, by decide⟩

/-- C9 (amended): when the cursor lies on a character boundary of the
input (in particular within 0..=byte length), handling any key event
returns normally (no panic) and leaves the cursor within 0..=byte length
of the updated buffer. -/
theorem handle_key_event_on_boundary_keeps_cursor_in_bounds
    (m : InputModel) (k : KeyCode)
    (hb : (charIdxAt m.input m.cursor_position).isSome = true) :
    ∃ m', m.handle_key_event k = some m' ∧
      m'.cursor_position ≤ byteSize m'.input := by
  obtain ⟨k0, hk0⟩ := Option.isSome_iff_exists.mp hb
  obtain ⟨hkl, hil⟩ := charIdxAt_le m.input m.cursor_position k0 hk0
  cases k with
  | Char c =>
    refine ⟨⟨m.typing, m.input.insertIdx k0 c, (m.cursor_position + 1) % USIZE⟩,
      ?_, ?_⟩
    · show m.insert c = some _
      unfold InputModel.insert
      rw [hk0]
    · show (m.cursor_position + 1) % USIZE ≤ byteSize (m.input.insertIdx k0 c)
      rw [byteSize_insertIdx c k0 m.input hkl]
      have h1 : (m.cursor_position + 1) % USIZE ≤ m.cursor_position + 1 :=
        Nat.mod_le _ _
      have h2 : 0 < c.utf8Size := Char.utf8Size_pos c
      omega
  | Backspace =>
    refine ⟨_, rfl, ?_⟩
    rw [InputModel.backspace]
    split
    · next h0 =>
      rw [h0]
      exact Nat.zero_le _
    · unfold InputModel.move_cursor_left InputModel.clamp_cursor
      exact Nat.min_le_right _ _
  | Left =>
    refine ⟨_, rfl, ?_⟩
    unfold InputModel.move_cursor_left InputModel.clamp_cursor
    exact Nat.min_le_right _ _
  | Right =>
    refine ⟨_, rfl, ?_⟩
    unfold InputModel.move_cursor_right InputModel.clamp_cursor
    exact Nat.min_le_right _ _
  | Other =>
    exact ⟨_, rfl, hil⟩

/-- Witness for C9, amended form: typing a character after the two-byte
character in the buffer éb, at boundary byte 2. -/
theorem handle_key_event_on_boundary_keeps_cursor_in_bounds_witness :
    (charIdxAt (['é', 'b'] : List Char) 2).isSome = true ∧
    ∃ m', InputModel.handle_key_event ⟨true, ['é', 'b'], 2⟩ (KeyCode.Char 'a') =
        some m' ∧
      m'.cursor_position ≤ byteSize m'.input :=
  ⟨by decide,
    handle_key_event_on_boundary_keeps_cursor_in_bounds ⟨true, ['é', 'b'], 2⟩
      (KeyCode.Char 'a') (by decide)⟩

/-- C10: backspace with the cursor at position 0 changes nothing: the
buffer and the cursor are left exactly as they were. -/
theorem backspace_at_zero_is_noop (m : InputModel)
    (h : m.cursor_position = 0) : m.backspace = m := by
  rw [InputModel.backspace]
  simp [h]

/-- Witness for C10 on the buffer "ab" with the cursor at 0. -/
theorem backspace_at_zero_is_noop_witness :
    (⟨false, ['a', 'b'], 0⟩ : InputModel).cursor_position = 0 ∧
    InputModel.backspace ⟨false, ['a', 'b'], 0⟩ = ⟨false, ['a', 'b'], 0⟩ :=
  ⟨rfl, backspace_at_zero_is_noop ⟨false, ['a', 'b'], 0⟩ rfl⟩

/-- ratatui ListState, modelled by its selected index; the scroll offset
field plays no role in any claim.  select (ratatui) stores the index. -/
structure ListState where
  selected : Option Nat
deriving DecidableEq

/-- ListState::select. -/
def ListState.select (s : ListState) (i : Option Nat) : ListState :=
  { s with selected := i }

/-- ListType (model.rs 289-293). -/
inductive ListType
  | List
  | Attrset
deriving DecidableEq

/-- ListData (model.rs 295-300). -/
structure ListData where
  state : ListState
  list_type : ListType
  list : List Seg
deriving DecidableEq

/-- PathData (model.rs 311-325): closed tagged variant of a node's
evaluated shape.  The f64 payload is carried opaquely. -/
inductive PathData
  | List (d : ListData)
  | Thunk
  | Int (i : Int)
  | Float (f : Float)
  | Bool (b : Bool)
  | String (s : Seg)
  | Path (p : Seg)
  | Null
  | Function
  | External
  | Loading
  | Error (e : Seg)

/-- NixValue (crate::workers), with exactly the variants the From impl at
model.rs 346-371 consumes. -/
inductive NixValue
  | Thunk
  | Int (i : Int)
  | Float (f : Float)
  | Bool (b : Bool)
  | String (s : Seg)
  | Path (p : Seg)
  | Null
  | Attrs (attrs : List Seg)
  | List (size : Nat)
  | Function
  | External
  | Error (e : Seg)

/-- From NixValue for PathData (model.rs 346-371): attribute sets keep
their key names, lists get decimal index names; both collection kinds
start with selection 0. -/
def PathData.ofNixValue : NixValue → PathData
  | NixValue.Thunk => PathData.Thunk
  | NixValue.Int i => PathData.Int i
  | NixValue.Float f => PathData.Float f
  | NixValue.Bool b => PathData.Bool b
  | NixValue.String s => PathData.String s
  | NixValue.Path p => PathData.Path p
  | NixValue.Null => PathData.Null
  | NixValue.Attrs attrs =>
    PathData.List ⟨⟨some 0⟩, ListType.Attrset, attrs⟩
  | NixValue.List size =>
    PathData.List ⟨⟨some 0⟩, ListType.List,
      (List.range size).map (fun i => (toString i).toList)⟩
  | NixValue.Function => PathData.Function
  | NixValue.External => PathData.External
  | NixValue.Error e => PathData.Error e

/-- PathDataMap (model.rs 70-71): the HashMap from path to data, modelled
extensionally as a partial function. -/
abbrev PathDataMap := BrowserPath → Option PathData

/-- RunningState (model.rs 282-287). -/
inductive RunningState
  | Running
  | Stopped
deriving DecidableEq

/-- InputState (model.rs 408-413). -/
inductive InputState
  | Normal
  | Active (m : InputModel)

/-- Bookmark (model.rs 396-400): display label plus address. -/
structure Bookmark where
  display : Seg
  path : BrowserPath

/-- Config (main.rs 31-34): the persisted bookmark list. -/
structure Config where
  bookmarks : List Bookmark

/-- Model (model.rs 13-34), without the render-only collaborator state
that the claims never touch. -/
structure Model where
  running_state : RunningState
  path_data : PathDataMap
  recents : List BrowserPath
  config : Config
  visit_stack : BrowserStack
  search_input : InputState
  path_navigator_input : InputState
  new_bookmark_input : InputState
  prev_tab_completion : Option Seg
  root_view_state : ListState
  bookmark_view_state : ListState
  recents_view_state : ListState

/-- One body iteration of the update_parent_selection loop (model.rs
56-60): when the parent's cache entry is a list whose child names contain
seg, select the first index of seg in that list; otherwise leave the cache
unchanged. -/
def selectStep (pd : PathDataMap) (par : BrowserPath) (seg : Seg) : PathDataMap :=
  match pd par with
  | some (PathData.List l) =>
    match l.list.findIdx? (fun x => x = seg) with
    | some pos => fun q =>
        if q = par then some (PathData.List { l with state := l.state.select (some pos) })
        else pd q
    | none => pd
  | _ => pd

/-- The parent loop of Model::update_parent_selection (model.rs 54-62),
fuelled by the path length, which strictly bounds the parent chain.
Returns the updated cache and the parent items in push order.  The unwrap
of path.0.last() is total here: the loop body runs only when a parent
exists, hence the path is nonempty. -/
def upsLoopF : Nat → PathDataMap → BrowserPath → PathDataMap × List BrowserStackItem
  | 0, pd, _ => (pd, [])
  | fuel + 1, pd, path =>
    match parent path with
    | none => (pd, [])
    | some par =>
      let r := upsLoopF fuel (selectStep pd par (path.getLastD [])) par
      (r.1, BrowserStackItem.BrowserPath par :: r.2)

/-- Model::update_parent_selection (model.rs 50-67): rebuild the visit
stack from Root down to current_path and point every cached ancestor's
list cursor at the next segment of the route. -/
def update_parent_selection (m : Model) (current_path : BrowserPath) : Model :=
  let r := upsLoopF current_path.length m.path_data current_path
  let new_stack :=
    (BrowserStackItem.BrowserPath current_path :: r.2) ++ [BrowserStackItem.Root]
  { m with path_data := r.1,
           root_view_state := m.root_view_state.select (some 2),
           visit_stack := new_stack.reverse }

/-- impl Serialize for BrowserPath (model.rs 179-186): collect_str of
to_expr, so the persisted text is exactly the canonical form. -/
def serializeBrowserPath (p : BrowserPath) : Seg :=
  to_expr p

/-- impl Deserialize for BrowserPath (model.rs 188-196): read a string,
then apply From String for BrowserPath. -/
def deserializeBrowserPath (s : Seg) : BrowserPath :=
  fromString s

/-- Modelled from the spec: the cache mutations of the message dispatcher
(update.rs, which is not under src/).  Spec 4.2 and 4.5: a worker response
writes the converted value at its address; dispatching an evaluation
request writes an optimistic Loading placeholder, and requests are issued
only for addresses not yet resolved (uncached or still pending); Refresh
resets the current address to Loading unconditionally. -/
inductive CacheOp
  | data (p : List Seg) (v : NixValue)
  | dispatch (p : List Seg)
  | refresh (p : List Seg)

/-- An address whose entry is absent or still the Loading placeholder. -/
def unresolvedEntry : Option PathData → Bool
  | none => true
  | some PathData.Loading => true
  | some _ => false

/-- Modelled from the spec: effect of one cache mutation (spec 4.2, 4.5,
8.2) on the value cache. -/
def cacheStep (m : PathDataMap) : CacheOp → PathDataMap
  | CacheOp.data p v => fun q => if q = p then some (PathData.ofNixValue v) else m q
  | CacheOp.dispatch p =>
    if unresolvedEntry (m p) then
      fun q => if q = p then some PathData.Loading else m q
    else m
  | CacheOp.refresh p => fun q => if q = p then some PathData.Loading else m q

/-- Modelled from the spec: the dispatcher's navigation-stack operations
(spec section 3, NavigationStack; 4.5): push of a child of the current
top, truncation by one floored at Root, and full replacement as performed
by update_parent_selection.  A push is only issuable when the top is a
concrete path; the guard makes the operation total.  The replacement stack
is computed by the upsLoopF loop of model.rs, whose stack component does
not depend on the cache (upsLoopF_stack_independent below). -/
inductive NavOp
  | push (name : Seg)
  | back
  | jump (p : List Seg)

/-- Modelled from the spec: effect of one navigation operation on the
visit stack. -/
def navStep (s : BrowserStack) : NavOp → BrowserStack
  | NavOp.push name =>
    match current s with
    | some p => push_path s (child p name)
    | none => s
  | NavOp.back => if 1 < s.length then s.dropLast else s
  | NavOp.jump p =>
    ((BrowserStackItem.BrowserPath p :: (upsLoopF p.length (fun _ => none) p).2)
      ++ [BrowserStackItem.Root]).reverse

/-- A run of navigation operations from the initial stack, which main.rs
131 seeds as the one-element stack holding Root. -/
def navRun (ops : List NavOp) : BrowserStack :=
  ops.foldl navStep [BrowserStackItem.Root]

/-- One path is a concrete child of another: exactly one segment deeper. -/
def isChildPath (a b : BrowserPath) : Prop :=
  ∃ s, b = child a s

/-- A worker response never converts to the Loading placeholder: the
NixValue enum has no pending variant (model.rs 346-371). -/
theorem ofNixValue_ne_loading (v : NixValue) :
    PathData.ofNixValue v ≠ PathData.Loading := by
  cases v <;> simp [PathData.ofNixValue]

/-- C4: a cache entry holding a concrete (non-Loading) value is never
overwritten with Loading by any cache mutation other than an explicit
Refresh of that very address. -/
theorem cache_concrete_never_reverts_to_loading (m : PathDataMap)
    (p : BrowserPath) (d : PathData) (hd : m p = some d)
    (hnl : d ≠ PathData.Loading) (op : CacheOp)
    (hop : op ≠ CacheOp.refresh p) :
    cacheStep m op p ≠ some PathData.Loading := by
  cases op with
  | data q v =>
    show (if p = q then some (PathData.ofNixValue v) else m p) ≠ some PathData.Loading
    split
    · intro h
      exact ofNixValue_ne_loading v (Option.some.inj h)
    · rw [hd]
      intro h
      exact hnl (Option.some.inj h)
  | dispatch q =>
    show (if unresolvedEntry (m q) then
            (fun r => if r = q then some PathData.Loading else m r)
          else m) p ≠ some PathData.Loading
    by_cases hpq : p = q
    · subst hpq
      have hu : unresolvedEntry (m p) = false := by
        rw [hd]
        cases d <;> first | rfl | exact absurd rfl hnl
      rw [hu]
      show m p ≠ some PathData.Loading
      rw [hd]
      intro h
      exact hnl (Option.some.inj h)
    · split
      · show (if p = q then some PathData.Loading else m p) ≠ some PathData.Loading
        rw [if_neg hpq, hd]
        intro h
        exact hnl (Option.some.inj h)
      · rw [hd]
        intro h
        exact hnl (Option.some.inj h)
  | refresh q =>
    have hpq : p ≠ q := fun h => hop (by rw [h])
    show (if p = q then some PathData.Loading else m p) ≠ some PathData.Loading
    rw [if_neg hpq, hd]
    intro h
    exact hnl (Option.some.inj h)

/-- A one-entry cache used to witness the cache claims at a concrete
state. -/
def exampleCache : PathDataMap :=
  fun q => if q = [['a']] then some (PathData.Int 3) else none

/-- Witness for C4: dispatching a request for an already-resolved address
does not regress the entry to Loading. -/
theorem cache_concrete_never_reverts_to_loading_witness :
    exampleCache [['a']] = some (PathData.Int 3) ∧
    PathData.Int 3 ≠ PathData.Loading ∧
    CacheOp.dispatch [['a']] ≠ CacheOp.refresh [['a']] ∧
    cacheStep exampleCache (CacheOp.dispatch [['a']]) [['a']] ≠ some PathData.Loading :=
  ⟨rfl, by simp, by simp,
    cache_concrete_never_reverts_to_loading exampleCache [['a']] (PathData.Int 3)
      rfl (by simp) (CacheOp.dispatch [['a']]) (by simp)⟩

/-- C7: the serde implementations of BrowserPath persist exactly the
canonical quoted-dot text form: serializing a bookmark's path emits
to_expr of it, and deserializing a string applies From String for
BrowserPath. -/
theorem bookmark_serde_is_canonical (b : Bookmark) (s : Seg) :
    serializeBrowserPath b.path = to_expr b.path ∧
    deserializeBrowserPath s = fromString s :=
  ⟨rfl, rfl⟩


/-- Keys at least as long as the walked path are never touched by the
parent loop: every update happens at a strictly shorter ancestor key. -/
theorem selectStep_ne (pd : PathDataMap) (par : BrowserPath) (seg : Seg)
    (q : BrowserPath) (h : q ≠ par) : selectStep pd par seg q = pd q := by
  unfold selectStep
  cases hpd : pd par with
  | none => rfl
  | some d =>
    cases d <;> try rfl
    case List l =>
      show (match l.list.findIdx? (fun x => x = seg) with
            | some pos => fun q =>
              if q = par then
                some (PathData.List { l with state := l.state.select (some pos) })
              else pd q
            | none => pd) q = pd q
      cases hfi : l.list.findIdx? (fun x => x = seg) with
      | none => rfl
      | some pos => exact if_neg h

/-- parent returns the dropLast of a path of length at least two. -/
theorem parent_eq_some {p q : BrowserPath} (h : parent p = some q) :
    q = p.dropLast ∧ 1 < p.length := by
  unfold parent at h
  split at h
  · exact ⟨(Option.some.inj h).symm, by assumption⟩
  · exact absurd h (by simp)

/-- Unfolding of the parent loop when a parent exists. -/
theorem upsLoopF_succ_some (fuel : Nat) (pd : PathDataMap) (path par : BrowserPath)
    (h : parent path = some par) :
    upsLoopF (fuel + 1) pd path =
      ((upsLoopF fuel (selectStep pd par (path.getLastD [])) par).1,
        BrowserStackItem.BrowserPath par ::
          (upsLoopF fuel (selectStep pd par (path.getLastD [])) par).2) := by
  rw [upsLoopF, h]

/-- Unfolding of the parent loop at the chain's end. -/
theorem upsLoopF_succ_none (fuel : Nat) (pd : PathDataMap) (path : BrowserPath)
    (h : parent path = none) :
    upsLoopF (fuel + 1) pd path = (pd, []) := by
  rw [upsLoopF, h]

/-- Frame property of the parent loop: the cache is unchanged at every key
at least as long as the walked path. -/
theorem upsLoopF_frame (fuel : Nat) (pd : PathDataMap) (path : BrowserPath)
    (k : BrowserPath) (hk : path.length ≤ k.length) :
    (upsLoopF fuel pd path).1 k = pd k := by
  induction fuel generalizing pd path with
  | zero => rfl
  | succ fuel ih =>
    cases h : parent path with
    | none => rw [upsLoopF_succ_none fuel pd path h]
    | some par =>
      obtain ⟨hpar, hlen⟩ := parent_eq_some h
      have hparlen : par.length = path.length - 1 := by
        rw [hpar, List.length_dropLast]
      have hne : k ≠ par := by
        intro he
        rw [he, hparlen] at hk
        omega
      rw [upsLoopF_succ_some fuel pd path par h]
      show (upsLoopF fuel (selectStep pd par (path.getLastD [])) par).1 k = pd k
      rw [ih _ par (by omega), selectStep_ne _ _ _ _ hne]


/-- The loop body at the key it updates: a cached list containing seg gets
its cursor set to seg's first index. -/
theorem selectStep_self (pd : PathDataMap) (par : BrowserPath) (seg : Seg)
    (l : ListData) (pos : Nat) (hl : pd par = some (PathData.List l))
    (hpos : l.list.findIdx? (fun x => x = seg) = some pos) :
    selectStep pd par seg par =
      some (PathData.List { l with state := l.state.select (some pos) }) := by
  unfold selectStep
  rw [hl]
  show (match l.list.findIdx? (fun x => x = seg) with
        | some pos => fun q =>
          if q = par then
            some (PathData.List { l with state := l.state.select (some pos) })
          else pd q
        | none => pd) par = _
  rw [hpos]
  show (if par = par then
          some (PathData.List { l with state := l.state.select (some pos) })
        else pd par) = _
  rw [if_pos rfl]

/-- Selection property of the parent loop: every proper nonempty prefix of
the walked path whose cache entry is a list containing the next route
segment ends up with its cursor on that segment's first index. -/
theorem upsLoopF_selects (fuel : Nat) : ∀ (pd : PathDataMap) (path : BrowserPath),
    path.length ≤ fuel → ∀ k, 1 ≤ k → k < path.length →
    ∀ (l : ListData) (pos : Nat),
    pd (path.take k) = some (PathData.List l) →
    l.list.findIdx? (fun x => x = path.getD k []) = some pos →
    (upsLoopF fuel pd path).1 (path.take k) =
      some (PathData.List { l with state := l.state.select (some pos) }) := by
  induction fuel with
  | zero =>
    intro pd path hf k hk1 hk2 l pos hl hpos
    omega
  | succ fuel ih =>
    intro pd path hf k hk1 hk2 l pos hl hpos
    have hplen : 1 < path.length := by omega
    have hpar : parent path = some path.dropLast := by
      unfold parent
      rw [if_pos hplen]
    rw [upsLoopF_succ_some fuel pd path path.dropLast hpar]
    show (upsLoopF fuel (selectStep pd path.dropLast (path.getLastD []))
            path.dropLast).1 (path.take k) =
      some (PathData.List { l with state := l.state.select (some pos) })
    by_cases hk : k = path.length - 1
    · have htake : path.take k = path.dropLast := by
        rw [List.dropLast_eq_take, hk]
      have hseg : path.getLastD [] = path.getD k [] := by
        rw [List.getLastD_eq_getLast?, List.getLast?_eq_getElem?,
            List.getD_eq_getElem?_getD, hk]
      rw [htake] at hl ⊢
      rw [upsLoopF_frame fuel _ path.dropLast path.dropLast (le_refl _)]
      refine selectStep_self pd path.dropLast (path.getLastD []) l pos hl ?_
      rw [hseg]
      exact hpos
    · have hk2' : k < path.dropLast.length := by
        rw [List.length_dropLast]
        omega
      have hfuel' : path.dropLast.length ≤ fuel := by
        rw [List.length_dropLast]
        omega
      have htake : path.dropLast.take k = path.take k := by
        rw [List.dropLast_eq_take, List.take_take]
        congr 1
        omega
      have hgd : path.dropLast.getD k [] = path.getD k [] := by
        rw [List.getD_eq_getElem?_getD, List.getD_eq_getElem?_getD,
            List.dropLast_eq_take, List.getElem?_take, if_pos (by omega)]
      have hne : path.take k ≠ path.dropLast := by
        intro he
        have hlen := congrArg List.length he
        rw [List.length_take, List.length_dropLast] at hlen
        omega
      have hl' : selectStep pd path.dropLast (path.getLastD []) (path.dropLast.take k)
          = some (PathData.List l) := by
        rw [htake, selectStep_ne _ _ _ _ hne]
        exact hl
      have hpos' : l.list.findIdx? (fun x => x = path.dropLast.getD k []) = some pos := by
        rw [hgd]
        exact hpos
      have := ih (selectStep pd path.dropLast (path.getLastD []))
        path.dropLast hfuel' k hk1 hk2' l pos hl' hpos'
      rw [htake] at this
      exact this


/-- C1: after update_parent_selection, the stack top is the concrete
argument path (so current_force succeeds and returns it), and every proper
nonempty-prefix ancestor whose cache entry is a list containing the next
route segment has its list cursor set to that segment's first index. -/
theorem update_parent_selection_consistent (m : Model) (p : BrowserPath) :
    current_force (update_parent_selection m p).visit_stack = some p ∧
    (∀ k, 1 ≤ k → k < p.length → ∀ (l : ListData) (pos : Nat),
      m.path_data (p.take k) = some (PathData.List l) →
      l.list.findIdx? (fun x => x = p.getD k []) = some pos →
      (update_parent_selection m p).path_data (p.take k) =
        some (PathData.List { l with state := l.state.select (some pos) })) := by
  constructor
  · show current_force (((BrowserStackItem.BrowserPath p ::
        (upsLoopF p.length m.path_data p).2) ++ [BrowserStackItem.Root]).reverse) = some p
    unfold current_force
    rw [List.getLast?_reverse]
    rfl
  · intro k hk1 hk2 l pos hl hpos
    exact upsLoopF_selects p.length m.path_data p (le_refl _) k hk1 hk2 l pos hl hpos

/-- A one-entry cache whose entry lists two child names; used to witness
the jump-consistency claim. -/
def exampleParentCache : PathDataMap :=
  fun q =>
    if q = [['a']] then
      some (PathData.List ⟨⟨some 0⟩, ListType.Attrset, [['x'], ['b']]⟩)
    else none

/-- A concrete model state used to witness the jump-consistency claim. -/
def exampleModel : Model :=
  { running_state := RunningState.Running,
    path_data := exampleParentCache,
    recents := [],
    config := ⟨[]⟩,
    visit_stack := [BrowserStackItem.Root],
    search_input := InputState.Normal,
    path_navigator_input := InputState.Normal,
    new_bookmark_input := InputState.Normal,
    prev_tab_completion := none,
    root_view_state := ⟨some 0⟩,
    bookmark_view_state := ⟨some 0⟩,
    recents_view_state := ⟨none⟩ }

/-- Witness for C1: jumping to a.b with the parent a cached as an
attribute set [x, b] lands the stack on a.b and the parent cursor on
index 1. -/
theorem update_parent_selection_consistent_witness :
    current_force (update_parent_selection exampleModel [['a'], ['b']]).visit_stack =
      some [['a'], ['b']] ∧
    (1 ≤ 1 ∧ 1 < ([['a'], ['b']] : BrowserPath).length) ∧
    exampleModel.path_data (([['a'], ['b']] : BrowserPath).take 1) =
      some (PathData.List ⟨⟨some 0⟩, ListType.Attrset, [['x'], ['b']]⟩) ∧
    ([['x'], ['b']] : List Seg).findIdx?
      (fun x => x = ([['a'], ['b']] : BrowserPath).getD 1 []) = some 1 ∧
    (update_parent_selection exampleModel [['a'], ['b']]).path_data
        (([['a'], ['b']] : BrowserPath).take 1) =
      some (PathData.List ⟨⟨some 1⟩, ListType.Attrset, [['x'], ['b']]⟩) :=
  ⟨(update_parent_selection_consistent exampleModel [['a'], ['b']]).1,
    ⟨by decide, by decide⟩, rfl, by decide,
    (update_parent_selection_consistent exampleModel [['a'], ['b']]).2 1
      (by decide) (by decide) ⟨⟨some 0⟩, ListType.Attrset, [['x'], ['b']]⟩ 1
      rfl (by decide)⟩

/-- The stack component of the parent loop does not depend on the cache,
which justifies modelling the dispatcher's jump with a trivial cache. -/
theorem upsLoopF_stack_independent (fuel : Nat) :
    ∀ (pd pd' : PathDataMap) (path : BrowserPath),
      (upsLoopF fuel pd path).2 = (upsLoopF fuel pd' path).2 := by
  induction fuel with
  | zero => intro pd pd' path; rfl
  | succ fuel ih =>
    intro pd pd' path
    cases h : parent path with
    | none => rw [upsLoopF_succ_none _ _ _ h, upsLoopF_succ_none _ _ _ h]
    | some par =>
      rw [upsLoopF_succ_some _ _ _ _ h, upsLoopF_succ_some _ _ _ _ h]
      show BrowserStackItem.BrowserPath par ::
          (upsLoopF fuel (selectStep pd par (path.getLastD [])) par).2 =
        BrowserStackItem.BrowserPath par ::
          (upsLoopF fuel (selectStep pd' par (path.getLastD [])) par).2
      rw [ih (selectStep pd par (path.getLastD []))
            (selectStep pd' par (path.getLastD [])) par]

/-- The stack the parent loop builds, read bottom-up, is a list of
concrete paths forming a parent chain that ends at the walked path. -/
theorem upsLoopF_stack_chain (fuel : Nat) :
    ∀ (pd : PathDataMap) (p : BrowserPath),
      ∃ ps : List BrowserPath,
        (BrowserStackItem.BrowserPath p :: (upsLoopF fuel pd p).2).reverse =
          ps.map BrowserStackItem.BrowserPath ∧
        List.Chain' isChildPath ps ∧ ps.getLast? = some p := by
  induction fuel with
  | zero =>
    intro pd p
    exact ⟨[p], rfl, List.chain'_singleton _, rfl⟩
  | succ fuel ih =>
    intro pd p
    cases h : parent p with
    | none =>
      rw [upsLoopF_succ_none _ _ _ h]
      exact ⟨[p], rfl, List.chain'_singleton _, rfl⟩
    | some par =>
      obtain ⟨hpar, hlen⟩ := parent_eq_some h
      have hne : p ≠ [] := by
        intro he
        rw [he] at hlen
        exact absurd hlen (by simp)
      obtain ⟨ps, hmap, hchain, hlast⟩ := ih (selectStep pd par (p.getLastD [])) par
      rw [upsLoopF_succ_some _ _ _ _ h]
      refine ⟨ps ++ [p], ?_, ?_, ?_⟩
      · show (BrowserStackItem.BrowserPath p :: BrowserStackItem.BrowserPath par ::
            (upsLoopF fuel (selectStep pd par (p.getLastD [])) par).2).reverse = _
        rw [List.reverse_cons]
        rw [show (BrowserStackItem.BrowserPath par ::
              (upsLoopF fuel (selectStep pd par (p.getLastD [])) par).2).reverse =
            ps.map BrowserStackItem.BrowserPath from hmap]
        rw [List.map_append]
        rfl
      · refine List.chain'_append.mpr ⟨hchain, List.chain'_singleton _, ?_⟩
        intro x hx y hy
        rw [hlast] at hx
        simp only [Option.mem_def, List.head?_cons, Option.some.injEq] at hx hy
        subst hx
        subst hy
        refine ⟨p.getLast hne, ?_⟩
        show p = par ++ [p.getLast hne]
        rw [hpar]
        exact (List.dropLast_append_getLast hne).symm
      · rw [List.getLast?_concat]

/-- current on a well-shaped stack is exactly the last path of the chain. -/
theorem current_root_cons (ps : List BrowserPath) :
    current (BrowserStackItem.Root :: ps.map BrowserStackItem.BrowserPath) =
      ps.getLast? := by
  induction ps using List.reverseRecOn with
  | nil => rfl
  | append_singleton ps p ih =>
    unfold current
    rw [show BrowserStackItem.Root ::
          (ps ++ [p]).map BrowserStackItem.BrowserPath =
        (BrowserStackItem.Root :: ps.map BrowserStackItem.BrowserPath)
          ++ [BrowserStackItem.BrowserPath p] from by
        rw [List.map_append]
        rfl,
        List.getLast?_concat, List.getLast?_concat]

/-- The navigation-stack invariant: below the top there is exactly the
Root marker followed by a parent chain of concrete paths. -/
def StackInv (s : BrowserStack) : Prop :=
  ∃ ps : List BrowserPath,
    s = BrowserStackItem.Root :: ps.map BrowserStackItem.BrowserPath ∧
    List.Chain' isChildPath ps

/-- Each navigation operation preserves the stack invariant. -/
theorem navStep_inv (s : BrowserStack) (op : NavOp) (h : StackInv s) :
    StackInv (navStep s op) := by
  obtain ⟨ps, rfl, hchain⟩ := h
  cases op with
  | push name =>
    unfold navStep
    rw [current_root_cons]
    cases hl : ps.getLast? with
    | none => exact ⟨ps, rfl, hchain⟩
    | some p =>
      refine ⟨ps ++ [child p name], ?_, ?_⟩
      · show BrowserStackItem.Root :: ps.map BrowserStackItem.BrowserPath
            ++ [BrowserStackItem.BrowserPath (child p name)] = _
        rw [List.map_append]
        rfl
      · refine List.chain'_append.mpr ⟨hchain, List.chain'_singleton _, ?_⟩
        intro x hx y hy
        rw [hl] at hx
        simp only [Option.mem_def, List.head?_cons, Option.some.injEq] at hx hy
        subst hx
        subst hy
        exact ⟨name, rfl⟩
  | back =>
    unfold navStep
    by_cases hps : ps = []
    · subst hps
      rw [if_neg (by simp)]
      exact ⟨[], rfl, hchain⟩
    · have hlen : 1 < (BrowserStackItem.Root ::
          ps.map BrowserStackItem.BrowserPath).length := by
        simp only [List.length_cons, List.length_map]
        have := List.length_pos.mpr hps
        omega
      rw [if_pos hlen]
      refine ⟨ps.dropLast, ?_, hchain.prefix (List.dropLast_prefix ps)⟩
      rw [List.dropLast_cons_of_ne_nil (by simp [hps]), ← List.map_dropLast]
  | jump p =>
    obtain ⟨qs, hmap, hchain', hlast⟩ :=
      upsLoopF_stack_chain p.length (fun _ => none) p
    refine ⟨qs, ?_, hchain'⟩
    show ((BrowserStackItem.BrowserPath p :: (upsLoopF p.length (fun _ => none) p).2)
        ++ [BrowserStackItem.Root]).reverse =
      BrowserStackItem.Root :: qs.map BrowserStackItem.BrowserPath
    rw [List.reverse_append, hmap]
    rfl

/-- Invariant preservation along a whole run. -/
theorem foldl_navStep_inv (ops : List NavOp) :
    ∀ s, StackInv s → StackInv (ops.foldl navStep s) := by
  induction ops with
  | nil => intro s h; exact h
  | cons op ops ih =>
    intro s h
    exact ih _ (navStep_inv s op h)

/-- C3: after any sequence of stack operations starting from the initial
stack holding Root, the stack consists of the Root marker followed by its
concrete-path suffix, that suffix is a strictly increasing parent chain
(each path a child of the previous), and it ends at the current address. -/
theorem nav_stack_parent_chain (ops : List NavOp) :
    ∃ ps : List BrowserPath,
      navRun ops = BrowserStackItem.Root :: ps.map BrowserStackItem.BrowserPath ∧
      List.Chain' isChildPath ps ∧
      current (navRun ops) = ps.getLast? := by
  obtain ⟨ps, heq, hchain⟩ :=
    foldl_navStep_inv ops [BrowserStackItem.Root] ⟨[], rfl, List.chain'_nil⟩
  refine ⟨ps, heq, hchain, ?_⟩
  rw [show navRun ops = BrowserStackItem.Root ::
        ps.map BrowserStackItem.BrowserPath from heq,
      current_root_cons]

end NixInspect
